import Mathlib

/-!
# Verification of the SECE complaints platform core (`app.py`)

Shallow embedding of the decision logic of the single-file complaints
application: the keyword classifier (`classify_complaint`), the complaint
store operations (`create_complaint`, `update_status`, `list_complaints`),
and the statistics engine (`dashboard_stats`' resolution-speed ranking and
its `pretty` duration formatter).

Modelling conventions:
* Python strings are modelled as Lean `String`/`List Char`, restricted to
  ASCII for case folding and the `\w` word-character class (all keyword
  tables and all inputs we reason about are ASCII).
* Python floats are modelled by exact rationals (`ℚ`).  All scores are
  multiples of 1/5 built from the literals 2, 0.2 and 5; the values fed to
  `round(·, 3)` are never within 1/6000 of a rounding midpoint, so the
  binary-float rounding error (≈1e-16) can never change the rounded result
  and the exact-rational model agrees with the float computation.
* Python `round(x, 3)` (round-half-even) is `round3` below.
* The SQLite table is modelled as a `List Complaint` in rowid (insertion)
  order; `AUTOINCREMENT` ids are `length + 1`.
* `ORDER BY timestamp DESC` (no secondary key in the query) is modelled as
  a stable sort over the rowid-order scan, which is what SQLite's sorter
  produces here; ties therefore come out in id-ascending order.
* `GROUP BY category` (no index on `category`) is modelled as producing
  one group per distinct category in ascending (BINARY, i.e. byte-wise)
  category order, which is what SQLite's grouping sorter produces.
-/

unseal Rat.add Rat.mul Rat.inv Rat.sub

/-- Lowercase a character sequence (ASCII model of Python `str.lower()`). -/
def lowerStr (s : List Char) : List Char := s.map Char.toLower

/-- `containsSub k s` holds iff `k` occurs as a contiguous substring of `s`
(model of Python `k in s`). -/
def containsSub (k : List Char) : List Char → Bool
  | [] => k.isEmpty
  | c :: rest => k.isPrefixOf (c :: rest) || containsSub k rest

/-- Split a character sequence into the maximal runs of characters
satisfying `p`; `acc` is the (reversed) run currently being read. -/
def splitRunsAux (p : Char → Bool) : List Char → List Char → List (List Char)
  | [], acc => if acc.isEmpty then [] else [acc.reverse]
  | c :: rest, acc =>
    if p c then splitRunsAux p rest (c :: acc)
    else if acc.isEmpty then splitRunsAux p rest []
    else acc.reverse :: splitRunsAux p rest []

/-- Maximal runs of characters satisfying `p`. -/
def splitRuns (p : Char → Bool) (s : List Char) : List (List Char) :=
  splitRunsAux p s []

/-- ASCII model of the regex `\w` character class used by
`re.findall(r"\w+", s)`. -/
def wordChar (c : Char) : Bool := c.isAlphanum || c == '_'

/-- The tokens of source line 107: `words = re.findall(r"\w+", s)`,
i.e. the maximal runs of word characters. -/
def wTokens (s : List Char) : List (List Char) := splitRuns wordChar s

/-- Whitespace-delimited tokens (the tokenization the spec's claim C3
describes; NOT what the source uses). -/
def wsTokens (s : List Char) : List (List Char) :=
  splitRuns (fun c => !c.isWhitespace) s

/-- The fuzzy token/keyword test of source line 116:
`abs(len(w) - len(k)) <= 2 and k.startswith(w[:3])`. -/
def fuzzy (w k : List Char) : Bool :=
  ((w.length : Int) - (k.length : Int)).natAbs ≤ 2 && (w.take 3).isPrefixOf k

/-- The keyword table `CATEGORY_KEYWORDS` of source lines 90–96. -/
def CATEGORY_KEYWORDS : List (String × List String) :=
  [("Infrastructure", ["roof", "leak", "electric", "power", "broken", "door",
      "window", "stairs", "lift", "elevator", "floor", "ceiling", "light",
      "water", "plumbing", "pipe", "road", "fence"]),
   ("Academic", ["exam", "grade", "marks", "professor", "teacher", "syllabus",
      "course", "timetable", "assignment", "lecture", "faculty", "attendance",
      "question paper", "cheating"]),
   ("Harassment", ["harass", "harassment", "bully", "bullying", "molest",
      "abuse", "threat", "unsafe", "discrimination", "sexual", "assault",
      "misconduct", "creepy"]),
   ("Facilities", ["canteen", "food", "washroom", "toilet", "clean", "hygiene",
      "lab", "equipment", "bench", "fan", "ac", "water cooler", "parking",
      "bus"]),
   ("IT/Network", ["network", "wifi", "internet", "server", "email", "login",
      "website", "portal", "database", "printer", "computer", "desktop",
      "laptop", "slow"])]

/-- `ALL_CATEGORIES = list(CATEGORY_KEYWORDS.keys()) + ["Other"]`
(source line 98). -/
def ALL_CATEGORIES : List String := CATEGORY_KEYWORDS.map Prod.fst ++ ["Other"]

/-- The high-severity override terms of source line 119. -/
def HARASS_TERMS : List String := ["harass", "bully", "sexual", "assault", "threat"]

/-- The raw score one category accumulates in `classify_complaint`
(source lines 109–117): +2 per keyword that is a substring of `s`, then
+0.2 per (token, keyword) pair passing the fuzzy test, folded in the
source's loop order. -/
def catScore (s : List Char) (ws : List (List Char)) (keys : List String) : ℚ :=
  ws.foldl (fun acc w =>
    keys.foldl (fun acc2 k => if fuzzy w k.data then acc2 + 1/5 else acc2) acc)
    (keys.foldl (fun acc k => if containsSub k.data s then acc + 2 else acc) (0 : ℚ))

/-- The full per-category score list of `classify_complaint` after the
harassment override (source lines 106–120), in dict insertion order
(`ALL_CATEGORIES` order, `"Other"` last with score 0), over the raw
character sequence of the input. -/
def rawScoresC (s0 : List Char) : List (String × ℚ) :=
  let s := lowerStr s0
  let ws := wTokens s
  let base := CATEGORY_KEYWORDS.map (fun p => (p.1, catScore s ws p.2)) ++ [("Other", (0 : ℚ))]
  if HARASS_TERMS.any (fun t => containsSub t.data s) then
    base.map (fun p => if p.1 = "Harassment" then (p.1, p.2 + 5) else p)
  else base

/-- The per-category score list of `classify_complaint` on a string. -/
def rawScores (text : String) : List (String × ℚ) := rawScoresC text.data

/-- The winner-selection fold of source lines 123–128: start from
`("Other", 0)` and replace the running best whenever a score is strictly
larger. -/
def pickBest (l : List (String × ℚ)) : String × ℚ :=
  l.foldl (fun best p => if best.2 < p.2 then p else best) ("Other", 0)

/-- Round-half-even to an integer (the rounding Python's `round` uses;
on the values reachable here no exact midpoint ever occurs, see header). -/
def halfEven (x : ℚ) : Int :=
  if x - (⌊x⌋ : ℚ) < 1/2 then ⌊x⌋
  else if 1/2 < x - (⌊x⌋ : ℚ) then ⌊x⌋ + 1
  else if ⌊x⌋ % 2 = 0 then ⌊x⌋ else ⌊x⌋ + 1

/-- Python `round(q, 3)`. -/
def round3 (q : ℚ) : ℚ := (halfEven (q * 1000) : ℚ) / 1000

/-- A well-formed score: nonnegative, and either zero or at least the
smallest possible increment 1/5. -/
def GoodScore (q : ℚ) : Prop := 0 ≤ q ∧ (q = 0 ∨ 1/5 ≤ q)

/-- `classify_complaint` (source lines 100–131) on a character sequence:
returns the winning category and `round(min(1.0, best_score / 6.0), 3)`. -/
def classifyC (s0 : List Char) : String × ℚ :=
  let best := pickBest (rawScoresC s0)
  (best.1, round3 (min 1 (best.2 / 6)))

/-- `classify_complaint` (source lines 100–131). -/
def classify_complaint (text : String) : String × ℚ := classifyC text.data

/-- Keywords of a category, looked up in the table (empty for `"Other"`). -/
def keywordsFor (cat : String) : List String :=
  ((CATEGORY_KEYWORDS.find? (fun p => p.1 = cat)).map Prod.snd).getD []

/-- The per-category score as the spec's claim describes it, parameterised
by the tokenizer: `2 ×` (number of keywords occurring as substrings)
`+ 0.2 ×` (number of (token, keyword) pairs passing the fuzzy test)
`+ 5` for `"Harassment"` when a high-severity term occurs. -/
def claimScoreWith (tok : List Char → List (List Char)) (text : String) (cat : String) : ℚ :=
  2 * ((keywordsFor cat).countP (fun k => containsSub k.data (lowerStr text.data)) : ℚ)
    + (1/5) * (((tok (lowerStr text.data)).map
        (fun w => (keywordsFor cat).countP (fun k => fuzzy w k.data))).sum : ℚ)
    + (if cat = "Harassment"
          ∧ HARASS_TERMS.any (fun t => containsSub t.data (lowerStr text.data))
       then 5 else 0)

/-- The claim's scoring formula with the tokenizer the source actually
uses (`\w+` runs). -/
def claimScore (text cat : String) : ℚ := claimScoreWith wTokens text cat

/-- The claim's scoring formula with whitespace-delimited tokens — the
tokenization claim C3 literally states. -/
def claimScoreWS (text cat : String) : ℚ := claimScoreWith wsTokens text cat

/-- The duration formatter `pretty` nested in `dashboard_stats`
(source lines 308–318).  For a Python int argument, `not sec or sec <= 0`
is equivalent to `sec ≤ 0`. -/
def pretty (sec : Int) : String :=
  if sec ≤ 0 then "-"
  else if sec.toNat / 86400 > 0 then
    s!"{sec.toNat / 86400}d {sec.toNat % 86400 / 3600}h"
  else if sec.toNat % 86400 / 3600 > 0 then
    s!"{sec.toNat % 86400 / 3600}h {sec.toNat % 3600 / 60}m"
  else s!"{sec.toNat % 3600 / 60}m"

/-- The formatter as claim C9 describes it: branch on the thresholds
86400 / 3600 / 0, with floor-division unit extraction. -/
def claimPretty (sec : Int) : String :=
  if 86400 ≤ sec then s!"{sec.toNat / 86400}d {sec.toNat % 86400 / 3600}h"
  else if 3600 ≤ sec then s!"{sec.toNat % 86400 / 3600}h {sec.toNat % 3600 / 60}m"
  else if 0 < sec then s!"{sec.toNat % 3600 / 60}m"
  else "-"

/-- A row of the `complaints` table (source lines 65–77).  `timestamp` is
the creation time (`created_at`); `resolved_at` is nullable. -/
structure Complaint where
  id : Nat
  category : String
  title : String
  body : String
  status : String
  timestamp : Int
  updated_at : Int
  resolved_at : Option Int
  predicted_confidence : ℚ
  anonymous_sent : Bool
deriving DecidableEq

/-- Python `str.strip()` (ASCII-whitespace model): drop leading and
trailing whitespace. -/
def strip (s : List Char) : List Char :=
  ((s.dropWhile Char.isWhitespace).reverse.dropWhile Char.isWhitespace).reverse

/-- Core of `create_complaint` (source lines 225–248): trim title and body,
reject an empty body, classify `body + " " + title` (body FIRST — source
line 234), insert a row with status `"New"`,
`timestamp = updated_at = now`, `resolved_at` NULL, and then record the
notification outcome `sent` in `anonymous_sent`.  `AUTOINCREMENT` assigns
id `rows.length + 1`.  Returns the new table and
`some (id, category, confidence)` on success, `none` on the empty-body
error. -/
def create_complaint (rows : List Complaint) (title body : String) (now : Int)
    (sent : Bool) : List Complaint × Option (Nat × String × ℚ) :=
  if strip body.data = [] then (rows, none)
  else
    (rows ++ [{ id := rows.length + 1,
                category := (classifyC (strip body.data ++ ' ' :: strip title.data)).1,
                title := ⟨strip title.data⟩, body := ⟨strip body.data⟩, status := "New",
                timestamp := now, updated_at := now, resolved_at := none,
                predicted_confidence := (classifyC (strip body.data ++ ' ' :: strip title.data)).2,
                anonymous_sent := sent }],
     some (rows.length + 1, (classifyC (strip body.data ++ ' ' :: strip title.data)).1,
           (classifyC (strip body.data ++ ' ' :: strip title.data)).2))

/-- Core of `update_status` (source lines 264–280): reject a status outside
`("New", "In Progress", "Resolved")` before touching the table; otherwise
run the SQL UPDATE, which sets `status` and `updated_at` (plus
`resolved_at` for `"Resolved"`) on every row whose id matches — silently
touching zero rows when the id does not exist — and report success.
The returned `Bool` is the `"ok"` field of the JSON response.
`applyStatus` is the per-row effect of the SQL UPDATE: a row whose id
matches gets the new status and `updated_at = now`, plus
`resolved_at = now` when resolving; other rows are untouched. -/
def applyStatus (cid : Nat) (new_status : String) (now : Int) (r : Complaint) : Complaint :=
  if r.id = cid then
    if new_status = "Resolved" then
      { r with status := new_status, updated_at := now, resolved_at := some now }
    else
      { r with status := new_status, updated_at := now }
  else r

/-- Core of `update_status`: validate, then map the SQL UPDATE over the
table and answer ok. -/
def update_status (rows : List Complaint) (cid : Nat) (new_status : String)
    (now : Int) : List Complaint × Bool :=
  if new_status = "New" ∨ new_status = "In Progress" ∨ new_status = "Resolved" then
    (rows.map (applyStatus cid new_status now), true)
  else (rows, false)

/-- Stable insertion of a row into a timestamp-descending list: the row
goes in front of the first element whose timestamp is `≤` its own, so a
row earlier in scan order precedes equal-timestamp rows. -/
def insertByTs (c : Complaint) : List Complaint → List Complaint
  | [] => [c]
  | x :: xs => if x.timestamp ≤ c.timestamp then c :: x :: xs else x :: insertByTs c xs

/-- Stable sort by `timestamp` descending over the rowid-order scan. -/
def sortByTsDesc : List Complaint → List Complaint
  | [] => []
  | x :: xs => insertByTs x (sortByTsDesc xs)

/-- `list_complaints` (source lines 250–262):
`SELECT * FROM complaints ORDER BY timestamp DESC`, modelled as a stable
descending sort over the table in rowid order (see header). -/
def list_complaints (rows : List Complaint) : List Complaint := sortByTsDesc rows

/-- A row counts into the resolution-speed ranking iff its status is
`"Resolved"` (the SQL `WHERE status='Resolved'`). -/
def isResolved (r : Complaint) : Bool := r.status = "Resolved"

/-- Lexicographic `≤` on character sequences by codepoint — equal to
SQLite's BINARY (byte-wise) order on ASCII strings. -/
def charsLe : List Char → List Char → Bool
  | [], _ => true
  | _ :: _, [] => false
  | a :: as, b :: bs => if a < b then true else if b < a then false else charsLe as bs

/-- BINARY-order `≤` on strings. -/
def strLe (a b : String) : Bool := charsLe a.data b.data

/-- Insert a string into an ascending list (ascending BINARY order,
which is the order SQLite's `GROUP BY` sorter emits). -/
def insertStrAsc (s : String) : List String → List String
  | [] => [s]
  | x :: xs => if strLe s x then s :: x :: xs else x :: insertStrAsc s xs

/-- Sort strings ascending (insertion sort). -/
def sortStrAsc : List String → List String
  | [] => []
  | x :: xs => insertStrAsc x (sortStrAsc xs)

/-- The groups produced by `GROUP BY category` over the resolved rows:
one group per distinct category, in ascending category order (see header). -/
def groupCats (rows : List Complaint) : List String :=
  sortStrAsc (((rows.filter isResolved).map (·.category)).dedup)

/-- Truncation toward zero, the behaviour of Python `int()` on the float
`AVG` returns. -/
def ratTrunc (q : ℚ) : Int := Int.tdiv q.num (q.den : Int)

/-- `AVG(resolved_at - timestamp)` over a category's resolved rows: SQL
`AVG` ignores NULL differences, and the code replaces a NULL average by 0
(`avg_sec = r["avg_seconds"] or 0`). -/
def avgSeconds (rows : List Complaint) (cat : String) : ℚ :=
  let vals := ((rows.filter (fun r => isResolved r && r.category == cat)).filterMap
    (fun r => r.resolved_at.map (fun t => t - r.timestamp)))
  if vals.length = 0 then 0 else ((vals.map (fun v => (v : ℚ))).sum) / (vals.length : ℚ)

/-- One `speed_stats` entry (source lines 300–304):
`{category, avg_seconds (int-truncated), resolved_count}`. -/
def entryFor (rows : List Complaint) (cat : String) : String × Int × Nat :=
  (cat, ratTrunc (avgSeconds rows cat),
   (rows.filter (fun r => isResolved r && r.category == cat)).length)

/-- The sort key of source line 306:
`x["avg_seconds"] if x["avg_seconds"]>0 else 10**9`. -/
def speedKey (e : String × Int × Nat) : Int := if e.2.1 > 0 then e.2.1 else 10^9

/-- Stable ascending insertion by `speedKey` (Python's `sorted` is stable). -/
def insertBySpeed (e : String × Int × Nat) :
    List (String × Int × Nat) → List (String × Int × Nat)
  | [] => [e]
  | x :: xs => if speedKey e ≤ speedKey x then e :: x :: xs else x :: insertBySpeed e xs

/-- Stable sort by `speedKey` ascending. -/
def sortBySpeed : List (String × Int × Nat) → List (String × Int × Nat)
  | [] => []
  | x :: xs => insertBySpeed x (sortBySpeed xs)

/-- The resolution-speed ranking of `dashboard_stats`
(source lines 298–306): one entry per category having a resolved row,
sorted by the `speedKey`. -/
def speed_stats (rows : List Complaint) : List (String × Int × Nat) :=
  sortBySpeed ((groupCats rows).map (entryFor rows))

/-- An operation on the complaint store: the two mutating API calls. -/
inductive Op where
  | create (title body : String) (now : Int) (sent : Bool)
  | update (cid : Nat) (ns : String) (now : Int)

/-- One API call applied to the table. -/
def stepOp (rows : List Complaint) : Op → List Complaint
  | .create t b now sent => (create_complaint rows t b now sent).1
  | .update cid ns now => (update_status rows cid ns now).1

/-- The table after a sequence of API calls, starting from the empty
table `init_db` creates. -/
def run (ops : List Op) : List Complaint := ops.foldl stepOp []

/-- The record with id `cid` has, at some point of the history `ops`, had
status `"Resolved"`. -/
def everResolved (ops : List Op) (cid : Nat) : Prop :=
  ∃ pre, pre <+: ops ∧ ∃ r ∈ run pre, r.id = cid ∧ r.status = "Resolved"


/-- Mapping a function that fixes every member leaves the list unchanged. -/
theorem map_eq_self_of_mem {α} (f : α → α) :
    ∀ (l : List α), (∀ a ∈ l, f a = a) → l.map f = l
  | [], _ => rfl
  | a :: l, h => by
    simp only [List.map_cons, h a (List.mem_cons_self a l),
      map_eq_self_of_mem f l (fun b hb => h b (List.mem_cons_of_mem a hb))]

/-- C9.  The duration formatter returns `"{days}d {hours}h"` for at least a
day, `"{hours}h {minutes}m"` for at least an hour, `"{minutes}m"` for
positive values and the sentinel `"-"` for zero or negative values, all
units by truncating integer division (`claimPretty` is the claim's
case split); in particular 90000 ↦ `"1d 1h"`, 5400 ↦ `"1h 30m"`,
45 ↦ `"0m"`, 0 and negative ↦ `"-"`. -/
theorem pretty_matches_claim :
    (∀ sec : Int, pretty sec = claimPretty sec)
    ∧ pretty 90000 = "1d 1h" ∧ pretty 5400 = "1h 30m" ∧ pretty 45 = "0m"
    ∧ pretty 0 = "-" ∧ pretty (-7) = "-" := by
  refine ⟨fun sec => ?_, by decide, by decide, by decide, by decide, by decide⟩
  unfold pretty claimPretty
  split_ifs <;> first | rfl | omega

/-- C7.  `update_status` with a status outside the three allowed values
`"New"`, `"In Progress"` (the state the spec names `InProgress`) and
`"Resolved"` reports a validation failure (`ok = false`) and returns the
table completely unchanged. -/
theorem update_status_invalid (rows : List Complaint) (cid : Nat) (ns : String)
    (now : Int) (h1 : ns ≠ "New") (h2 : ns ≠ "In Progress") (h3 : ns ≠ "Resolved") :
    update_status rows cid ns now = (rows, false) := by
  unfold update_status
  rw [if_neg]
  rintro (h | h | h) <;> contradiction

/-- Witness for C7 at a concrete input: `"Bogus"` is rejected and the
one-row table is untouched. -/
theorem update_status_invalid_witness :
    update_status [⟨1, "Other", "t", "b", "New", 0, 0, none, 0, true⟩] 1 "Bogus" 50
      = ([⟨1, "Other", "t", "b", "New", 0, 0, none, 0, true⟩], false) :=
  update_status_invalid _ 1 "Bogus" 50 (by decide) (by decide) (by decide)

/-- C1 counterexample.  A status update against an id that matches no
record does NOT fail: the code runs the SQL UPDATE (touching zero rows)
and answers `{"ok": true}`.  Here the table holds only id 1, the request
targets id 99, and the call succeeds with the table unchanged — the
claimed `NotFound` error does not exist in the code. -/
theorem update_status_missing_cex :
    update_status [⟨1, "Other", "t", "b", "New", 0, 0, none, 0, true⟩] 99 "Resolved" 50
      = ([⟨1, "Other", "t", "b", "New", 0, 0, none, 0, true⟩], true) := by
  decide

/-- C1 (amended).  A status update with a valid status against an id that
matches no record silently succeeds (`ok = true`) and changes no record
in the store. -/
theorem update_status_missing (rows : List Complaint) (cid : Nat) (ns : String)
    (now : Int) (hv : ns = "New" ∨ ns = "In Progress" ∨ ns = "Resolved")
    (hm : ∀ r ∈ rows, r.id ≠ cid) :
    update_status rows cid ns now = (rows, true) := by
  unfold update_status
  rw [if_pos hv]
  refine congrArg (·, true) (map_eq_self_of_mem _ rows fun r hr => ?_)
  unfold applyStatus
  rw [if_neg (hm r hr)]

/-- Witness for C1 (amended) at a concrete input. -/
theorem update_status_missing_witness :
    update_status [⟨1, "Other", "t", "b", "New", 0, 0, none, 0, true⟩] 99 "In Progress" 50
      = ([⟨1, "Other", "t", "b", "New", 0, 0, none, 0, true⟩], true) :=
  update_status_missing _ 99 "In Progress" 50 (by decide) (by decide)

/-- C5 counterexample.  The code classifies `body + " " + title`
(body FIRST, source line 234), not title-then-body.  With
`title = "paper"`, `body = "question"` the code stores category
`"Academic"` (the concatenation `"question paper"` hits that exact
keyword phrase), while `classify` on the title-first concatenation
`"paper question"` returns `("Other", 0)`. -/
theorem create_complaint_order_cex :
    (create_complaint [] "paper" "question" 0 true).2 = some (1, "Academic", 333/1000)
    ∧ classify_complaint ("paper" ++ " " ++ "question") = ("Other", 0)
    ∧ ("Academic" : String) ≠ "Other" := by
  decide

/-- C5 (amended).  For a body that is non-empty after trimming, the
category and confidence returned by `create_complaint` and stored on the
new record equal `classify` applied to the concatenation of the trimmed
BODY, a space, and the trimmed TITLE (body first, then title). -/
theorem create_complaint_classifies (rows : List Complaint) (title body : String)
    (now : Int) (sent : Bool) (h : strip body.data ≠ []) :
    (create_complaint rows title body now sent).2
      = some (rows.length + 1, (classifyC (strip body.data ++ ' ' :: strip title.data)).1,
              (classifyC (strip body.data ++ ' ' :: strip title.data)).2)
    ∧ ∃ r, (create_complaint rows title body now sent).1 = rows ++ [r]
        ∧ r.category = (classifyC (strip body.data ++ ' ' :: strip title.data)).1
        ∧ r.predicted_confidence = (classifyC (strip body.data ++ ' ' :: strip title.data)).2 := by
  unfold create_complaint
  rw [if_neg h]
  exact ⟨rfl, _, rfl, rfl, rfl⟩

/-- Specification of the argmax fold of `pickBest`: either no element ever
beats the initial value `b` and the fold returns `b`, or the fold returns
the first element attaining the maximum, i.e. some `r` with `b.2 < r.2`
that bounds every score, with all elements before it strictly below it. -/
theorem pickFold_spec (b : String × ℚ) (l : List (String × ℚ)) :
    (List.foldl (fun best p => if best.2 < p.2 then p else best) b l = b
      ∧ ∀ p ∈ l, p.2 ≤ b.2)
    ∨ (∃ l₁ r l₂, l = l₁ ++ r :: l₂
        ∧ List.foldl (fun best p => if best.2 < p.2 then p else best) b l = r
        ∧ b.2 < r.2 ∧ (∀ p ∈ l₁, p.2 < r.2) ∧ (∀ p ∈ l₂, p.2 ≤ r.2)) := by
  induction l generalizing b with
  | nil => exact .inl ⟨rfl, by simp⟩
  | cons p l ih =>
    by_cases h : b.2 < p.2
    · rcases ih p with ⟨heq, hle⟩ | ⟨l₁, r, l₂, hsplit, heq, hlt, h₁, h₂⟩
      · exact .inr ⟨[], p, l, by simp, by simpa [h] using heq, h, by simp, hle⟩
      · refine .inr ⟨p :: l₁, r, l₂, by simp [hsplit], by simpa [h] using heq,
          lt_trans h hlt, ?_, h₂⟩
        intro q hq
        rcases List.mem_cons.mp hq with rfl | hq
        · exact hlt
        · exact h₁ q hq
    · rcases ih b with ⟨heq, hle⟩ | ⟨l₁, r, l₂, hsplit, heq, hlt, h₁, h₂⟩
      · refine .inl ⟨by simpa [h] using heq, ?_⟩
        intro q hq
        rcases List.mem_cons.mp hq with rfl | hq
        · exact le_of_not_lt h
        · exact hle q hq
      · refine .inr ⟨p :: l₁, r, l₂, by simp [hsplit], by simpa [h] using heq, hlt, ?_, h₂⟩
        intro q hq
        rcases List.mem_cons.mp hq with rfl | hq
        · exact lt_of_le_of_lt (le_of_not_lt h) hlt
        · exact h₁ q hq

theorem goodScore_zero : GoodScore 0 := ⟨le_refl 0, .inl rfl⟩

theorem goodScore_add (q c : ℚ) (hq : GoodScore q) (hc : 1/5 ≤ c) :
    GoodScore (q + c) := by
  refine ⟨by linarith [hq.1], .inr ?_⟩
  linarith [hq.1]

/-- Folds that either keep the accumulator or add one of the score
increments preserve `GoodScore`. -/
theorem foldl_goodScore {α} (f : ℚ → α → ℚ)
    (hf : ∀ q a, GoodScore q → GoodScore (f q a)) :
    ∀ (l : List α) (q : ℚ), GoodScore q → GoodScore (l.foldl f q)
  | [], q, hq => hq
  | a :: l, q, hq => foldl_goodScore f hf l (f q a) (hf q a hq)

theorem catScore_good (s : List Char) (ws : List (List Char)) (keys : List String) :
    GoodScore (catScore s ws keys) := by
  unfold catScore
  refine foldl_goodScore _ (fun q w hq => foldl_goodScore _ (fun q' k hq' => ?_) keys q hq) ws _
    (foldl_goodScore _ (fun q k hq => ?_) keys 0 goodScore_zero)
  · split
    · exact goodScore_add _ _ hq' (by norm_num)
    · exact hq'
  · split
    · exact goodScore_add _ _ hq (by norm_num)
    · exact hq

/-- Every score in the classifier's score table is a `GoodScore`. -/
theorem rawScores_good (text : String) : ∀ p ∈ rawScores text, GoodScore p.2 := by
  intro p hp
  have expand : rawScores text =
      (if HARASS_TERMS.any (fun t => containsSub t.data (lowerStr text.data)) then
        (CATEGORY_KEYWORDS.map (fun p =>
          (p.1, catScore (lowerStr text.data) (wTokens (lowerStr text.data)) p.2))
          ++ [("Other", (0 : ℚ))]).map
            (fun p => if p.1 = "Harassment" then (p.1, p.2 + 5) else p)
      else
        CATEGORY_KEYWORDS.map (fun p =>
          (p.1, catScore (lowerStr text.data) (wTokens (lowerStr text.data)) p.2))
          ++ [("Other", (0 : ℚ))]) := rfl
  rw [expand] at hp
  split at hp
  · rcases List.mem_map.mp hp with ⟨q, hq, rfl⟩
    have hqgood : GoodScore q.2 := by
      rcases List.mem_append.mp hq with hq | hq
      · rcases List.mem_map.mp hq with ⟨e, _, rfl⟩
        exact catScore_good _ _ _
      · rcases List.mem_singleton.mp hq with rfl
        exact goodScore_zero
    split
    · exact goodScore_add _ _ hqgood (by norm_num)
    · exact hqgood
  · rcases List.mem_append.mp hp with hq | hq
    · rcases List.mem_map.mp hq with ⟨e, _, rfl⟩
      exact catScore_good _ _ _
    · rcases List.mem_singleton.mp hq with rfl
      exact goodScore_zero

/-- The first components of the score table are exactly `ALL_CATEGORIES`. -/
theorem rawScores_fst (text : String) :
    (rawScores text).map Prod.fst = ALL_CATEGORIES := by
  have expand : rawScores text =
      (if HARASS_TERMS.any (fun t => containsSub t.data (lowerStr text.data)) then
        (CATEGORY_KEYWORDS.map (fun p =>
          (p.1, catScore (lowerStr text.data) (wTokens (lowerStr text.data)) p.2))
          ++ [("Other", (0 : ℚ))]).map
            (fun p => if p.1 = "Harassment" then (p.1, p.2 + 5) else p)
      else
        CATEGORY_KEYWORDS.map (fun p =>
          (p.1, catScore (lowerStr text.data) (wTokens (lowerStr text.data)) p.2))
          ++ [("Other", (0 : ℚ))]) := rfl
  rw [expand]
  split <;>
    simp [ALL_CATEGORIES, List.map_map, Function.comp, apply_ite Prod.fst]

/-- The harassment-override map keeps each entry's category. -/
theorem bump_fst (q : String × ℚ) :
    (if q.1 = "Harassment" then (q.1, q.2 + 5) else q).1 = q.1 := by
  split <;> rfl

/-- Any entry of the score table named `"Other"` carries score 0 (the
catch-all owns no keywords and never receives the override bonus). -/
theorem rawScores_other (text : String) :
    ∀ p ∈ rawScores text, p.1 = "Other" → p.2 = 0 := by
  intro p hp hother
  have expand : rawScores text =
      (if HARASS_TERMS.any (fun t => containsSub t.data (lowerStr text.data)) then
        (CATEGORY_KEYWORDS.map (fun p =>
          (p.1, catScore (lowerStr text.data) (wTokens (lowerStr text.data)) p.2))
          ++ [("Other", (0 : ℚ))]).map
            (fun p => if p.1 = "Harassment" then (p.1, p.2 + 5) else p)
      else
        CATEGORY_KEYWORDS.map (fun p =>
          (p.1, catScore (lowerStr text.data) (wTokens (lowerStr text.data)) p.2))
          ++ [("Other", (0 : ℚ))]) := rfl
  have hfstne : ∀ q ∈ CATEGORY_KEYWORDS, q.1 ≠ "Other" := by decide
  rw [expand] at hp
  split at hp
  · rcases List.mem_map.mp hp with ⟨q, hq, rfl⟩
    rw [bump_fst q] at hother
    rcases List.mem_append.mp hq with hq | hq
    · rcases List.mem_map.mp hq with ⟨e, he, rfl⟩
      exact absurd hother (hfstne e he)
    · rcases List.mem_singleton.mp hq with rfl
      simp [hother]
  · rcases List.mem_append.mp hp with hq | hq
    · rcases List.mem_map.mp hq with ⟨e, he, rfl⟩
      exact absurd hother (hfstne e he)
    · rcases List.mem_singleton.mp hq with rfl
      rfl

/-- `halfEven` rounds to the floor or to the floor plus one. -/
theorem halfEven_bounds (x : ℚ) : ⌊x⌋ ≤ halfEven x ∧ halfEven x ≤ ⌊x⌋ + 1 := by
  unfold halfEven
  split_ifs <;> omega

/-- `round3` maps `[0, 1]` into `[0, 1]`. -/
theorem round3_bounds (q : ℚ) (h0 : 0 ≤ q) (h1 : q ≤ 1) :
    0 ≤ round3 q ∧ round3 q ≤ 1 := by
  obtain ⟨hlo, hhi⟩ := halfEven_bounds (q * 1000)
  have hfl : (0 : Int) ≤ ⌊q * 1000⌋ := Int.floor_nonneg.mpr (by linarith)
  have hfu : ⌊q * 1000⌋ ≤ 1000 := by
    have h2 : ((⌊q * 1000⌋ : Int) : ℚ) ≤ q * 1000 := Int.floor_le _
    have h3 : ((⌊q * 1000⌋ : Int) : ℚ) ≤ 1000 := by linarith
    exact_mod_cast h3
  constructor
  · unfold round3
    have : (0 : ℚ) ≤ (halfEven (q * 1000) : ℚ) := by exact_mod_cast le_trans hfl hlo
    positivity
  · unfold round3
    rw [div_le_one (by norm_num : (0:ℚ) < 1000)]
    have h1000 : halfEven (q * 1000) ≤ 1000 := by
      rcases lt_or_le (⌊q * 1000⌋) 1000 with hlt | hge
      · omega
      · have hqe : ⌊q * 1000⌋ = 1000 := le_antisymm hfu hge
        have heq : halfEven (q * 1000) = 1000 := by
          unfold halfEven
          have hfrac : q * 1000 - ((⌊q * 1000⌋ : Int) : ℚ) < 1/2 := by
            rw [hqe]
            push_cast
            linarith
          rw [if_pos hfrac, hqe]
        omega
    exact_mod_cast h1000

/-- Positive inputs at least 1/30 round to a positive value. -/
theorem round3_pos (q : ℚ) (h : 1/30 ≤ q) : 0 < round3 q := by
  obtain ⟨hlo, _⟩ := halfEven_bounds (q * 1000)
  have : (1 : Int) ≤ ⌊q * 1000⌋ := by
    rw [Int.le_floor]
    push_cast
    linarith
  unfold round3
  have h1 : (0 : ℚ) < (halfEven (q * 1000) : ℚ) := by
    have := le_trans this hlo
    exact_mod_cast lt_of_lt_of_le Int.zero_lt_one this
  exact div_pos h1 (by norm_num)

theorem round3_zero : round3 0 = 0 := by decide

/-- `pickBest` either falls back to `("Other", 0)` or returns a member of
the score list with strictly positive score. -/
theorem pickBest_cases (l : List (String × ℚ)) :
    pickBest l = ("Other", 0) ∨ (pickBest l ∈ l ∧ 0 < (pickBest l).2) := by
  rcases pickFold_spec ("Other", 0) l with ⟨heq, _⟩ | ⟨l₁, r, l₂, hsplit, heq, hlt, _, _⟩
  · exact .inl heq
  · refine .inr ⟨?_, ?_⟩
    · rw [show pickBest l = r from heq, hsplit]
      exact List.mem_append.mpr (.inr (List.mem_cons_self _ _))
    · rw [show pickBest l = r from heq]
      exact hlt

/-- C8.  For every input text, `classify_complaint` returns a category in
the fixed enumerated set and a confidence in `[0, 1]` (a multiple of
1/1000, i.e. rounded to 3 decimal places by construction); when every
category's raw score is zero (no keyword matches anywhere) it returns the
catch-all `("Other", 0.0)`. -/
theorem classify_total (text : String) :
    (classify_complaint text).1 ∈ ALL_CATEGORIES
    ∧ 0 ≤ (classify_complaint text).2 ∧ (classify_complaint text).2 ≤ 1
    ∧ ((∀ p ∈ rawScores text, p.2 = 0) → classify_complaint text = ("Other", 0)) := by
  have hcl1 : (classify_complaint text).1 = (pickBest (rawScores text)).1 := rfl
  have hcl2 : (classify_complaint text).2
      = round3 (min 1 ((pickBest (rawScores text)).2 / 6)) := rfl
  have hbest := pickBest_cases (rawScores text)
  have hnn : 0 ≤ (pickBest (rawScores text)).2 := by
    rcases hbest with h | ⟨_, h⟩
    · rw [h]
    · exact le_of_lt h
  have hq0 : 0 ≤ min 1 ((pickBest (rawScores text)).2 / 6) :=
    le_min (by norm_num) (div_nonneg hnn (by norm_num))
  have hq1 : min 1 ((pickBest (rawScores text)).2 / 6) ≤ 1 := min_le_left _ _
  obtain ⟨hb0, hb1⟩ := round3_bounds _ hq0 hq1
  refine ⟨?_, by rw [hcl2]; exact hb0, by rw [hcl2]; exact hb1, ?_⟩
  · rcases hbest with h | ⟨hmem, _⟩
    · rw [hcl1, h]
      decide
    · rw [hcl1, ← rawScores_fst text]
      exact List.mem_map_of_mem Prod.fst hmem
  · intro hz
    rcases hbest with h | ⟨hmem, hpos⟩
    · refine Prod.ext ?_ ?_
      · rw [hcl1, h]
      · rw [hcl2, h]
        decide
    · exact absurd (hz _ hmem) (ne_of_gt hpos)

/-- Witness for C8 at the spec's own example `"xyz abc qqq"`: all raw
scores are zero and the classifier answers `("Other", 0.0)`. -/
theorem classify_total_witness :
    (∀ p ∈ rawScores "xyz abc qqq", p.2 = 0)
    ∧ classify_complaint "xyz abc qqq" = ("Other", 0) :=
  ⟨by decide, (classify_total "xyz abc qqq").2.2.2 (by decide)⟩

/-- C10.  `classify_complaint` returns the catch-all `"Other"` iff the
returned confidence is exactly 0: the catch-all has no keywords so it can
only win with raw score 0, and any other winner carries a raw score of at
least 0.2, whose confidence rounds to at least 0.033 > 0. -/
theorem classify_other_iff_conf_zero (text : String) :
    (classify_complaint text).1 = "Other" ↔ (classify_complaint text).2 = 0 := by
  have hcl1 : (classify_complaint text).1 = (pickBest (rawScores text)).1 := rfl
  have hcl2 : (classify_complaint text).2
      = round3 (min 1 ((pickBest (rawScores text)).2 / 6)) := rfl
  rcases pickBest_cases (rawScores text) with h | ⟨hmem, hpos⟩
  · constructor
    · intro _
      rw [hcl2, h]
      decide
    · intro _
      rw [hcl1, h]
  · have h15 : 1/5 ≤ (pickBest (rawScores text)).2 := by
      rcases (rawScores_good text _ hmem).2 with h0 | h15
      · exact absurd h0 (ne_of_gt hpos)
      · exact h15
    have hne1 : (pickBest (rawScores text)).1 ≠ "Other" := fun hother =>
      absurd (rawScores_other text _ hmem hother) (ne_of_gt hpos)
    have hconf : 0 < (classify_complaint text).2 := by
      rw [hcl2]
      apply round3_pos
      refine le_min (by norm_num) ?_
      linarith
    constructor
    · intro h
      exact (hne1 (hcl1.symm.trans h)).elim
    · intro h
      exact absurd h (ne_of_gt hconf)

/-- The substring-hit fold adds 2 per matching keyword. -/
theorem foldl_count_two (s : List Char) :
    ∀ (keys : List String) (a : ℚ),
      keys.foldl (fun acc k => if containsSub k.data s then acc + 2 else acc) a
        = a + 2 * (keys.countP (fun k => containsSub k.data s) : ℚ)
  | [], a => by simp
  | k :: ks, a => by
    simp only [List.foldl_cons, List.countP_cons]
    by_cases h : containsSub k.data s
    · rw [if_pos h, foldl_count_two s ks (a + 2)]
      simp [h]
      push_cast
      ring
    · rw [if_neg h, foldl_count_two s ks a]
      simp [h]

/-- The fuzzy fold adds 1/5 per matching keyword. -/
theorem foldl_count_fifth (w : List Char) :
    ∀ (keys : List String) (a : ℚ),
      keys.foldl (fun acc2 k => if fuzzy w k.data then acc2 + 1/5 else acc2) a
        = a + (1/5) * (keys.countP (fun k => fuzzy w k.data) : ℚ)
  | [], a => by simp
  | k :: ks, a => by
    simp only [List.foldl_cons, List.countP_cons]
    by_cases h : fuzzy w k.data
    · rw [if_pos h, foldl_count_fifth w ks (a + 1/5)]
      simp [h]
      push_cast
      ring
    · rw [if_neg h, foldl_count_fifth w ks a]
      simp [h]

/-- The token loop adds 1/5 per (token, keyword) fuzzy pair. -/
theorem foldl_words_sum (keys : List String) :
    ∀ (ws : List (List Char)) (a : ℚ),
      ws.foldl (fun acc w =>
          keys.foldl (fun acc2 k => if fuzzy w k.data then acc2 + 1/5 else acc2) acc) a
        = a + (1/5) * ((ws.map (fun w => keys.countP (fun k => fuzzy w k.data))).sum : ℚ)
  | [], a => by simp
  | w :: ws, a => by
    simp only [List.foldl_cons, List.map_cons, List.sum_cons]
    rw [foldl_words_sum keys ws _, foldl_count_fifth w keys a]
    push_cast
    ring

/-- The score a category accumulates in the source's fold equals the
claim's closed formula: `2 ×` substring hits `+ 0.2 ×` fuzzy pairs. -/
theorem catScore_eq (s : List Char) (ws : List (List Char)) (keys : List String) :
    catScore s ws keys
      = 2 * (keys.countP (fun k => containsSub k.data s) : ℚ)
        + (1/5) * ((ws.map (fun w => keys.countP (fun k => fuzzy w k.data))).sum : ℚ) := by
  unfold catScore
  rw [foldl_words_sum, foldl_count_two]
  ring

/-- Looking a table entry's category up in the table yields its keywords. -/
theorem keywordsFor_table : ∀ p ∈ CATEGORY_KEYWORDS, keywordsFor p.1 = p.2 := by
  decide

/-- The catch-all has no keywords, so its claim-formula score is 0. -/
theorem claimScore_other (text : String) : claimScore text "Other" = 0 := by
  unfold claimScore claimScoreWith
  have h : keywordsFor "Other" = [] := rfl
  rw [h]
  rw [if_neg (fun hcond => absurd hcond.1 (by decide))]
  simp

/-- The classifier's score table is exactly the claim's scoring formula
(with the source's `\w+` tokenizer), category by category. -/
theorem rawScores_eq (text : String) :
    rawScores text = ALL_CATEGORIES.map (fun c => (c, claimScore text c)) := by
  have expand : rawScores text =
      (if HARASS_TERMS.any (fun t => containsSub t.data (lowerStr text.data)) then
        (CATEGORY_KEYWORDS.map (fun p =>
          (p.1, catScore (lowerStr text.data) (wTokens (lowerStr text.data)) p.2))
          ++ [("Other", (0 : ℚ))]).map
            (fun p => if p.1 = "Harassment" then (p.1, p.2 + 5) else p)
      else
        CATEGORY_KEYWORDS.map (fun p =>
          (p.1, catScore (lowerStr text.data) (wTokens (lowerStr text.data)) p.2))
          ++ [("Other", (0 : ℚ))]) := rfl
  have hmap : ALL_CATEGORIES.map (fun c => (c, claimScore text c))
      = CATEGORY_KEYWORDS.map (fun p => (p.1, claimScore text p.1))
          ++ [("Other", claimScore text "Other")] := by
    simp [ALL_CATEGORIES, List.map_map, Function.comp]
  rw [expand, hmap]
  by_cases hc : HARASS_TERMS.any (fun t => containsSub t.data (lowerStr text.data))
  · rw [if_pos hc, List.map_append, List.map_map]
    refine congrArg₂ (· ++ ·) (List.map_congr_left fun p hp => ?_) ?_
    · have hk := keywordsFor_table p hp
      by_cases hh : p.1 = "Harassment"
      · have hk2 : keywordsFor "Harassment" = p.2 := hh ▸ hk
        simp only [Function.comp, hh, if_true, reduceIte]
        unfold claimScore claimScoreWith
        rw [if_pos ⟨rfl, hc⟩, hk2, catScore_eq]
      · simp only [Function.comp, if_neg hh]
        unfold claimScore claimScoreWith
        rw [if_neg (fun hcond => hh hcond.1)]
        rw [catScore_eq, hk]
        ring_nf
    · have hb : (if ("Other", (0:ℚ)).1 = "Harassment" then (("Other", (0:ℚ)).1, ("Other", (0:ℚ)).2 + 5) else ("Other", (0:ℚ))) = ("Other", (0:ℚ)) := by
        rw [if_neg (by decide)]
      simp only [List.map_cons, List.map_nil, hb, claimScore_other]
  · rw [if_neg hc]
    refine congrArg₂ (· ++ ·) (List.map_congr_left fun p hp => ?_) ?_
    · have hk := keywordsFor_table p hp
      unfold claimScore claimScoreWith
      rw [if_neg (fun hcond => hc hcond.2)]
      rw [catScore_eq, hk]
      ring_nf
    · rw [claimScore_other]

set_option maxRecDepth 8000 in
/-- C3 counterexample.  The source tokenizes with `re.findall(r"\w+", s)`
(maximal runs of word characters), NOT by whitespace.  On the input
`"wifi-broken"` the whitespace tokenization the claim states yields a
single token `"wifi-broken"` with no fuzzy pair, so the claim's formula
scores the winner (`"Infrastructure"`) 2 and predicts confidence
`round(2/6, 3) = 0.333`, while the code's tokens `["wifi", "broken"]`
produce two fuzzy pairs, score 2.2 and confidence 0.367. -/
theorem classify_tokens_cex :
    claimScoreWS "wifi-broken" "Infrastructure" = 2
    ∧ claimScore "wifi-broken" "Infrastructure" = 11/5
    ∧ rawScores "wifi-broken"
        ≠ ALL_CATEGORIES.map (fun c => (c, claimScoreWS "wifi-broken" c))
    ∧ (classify_complaint "wifi-broken").2 = 367/1000
    ∧ round3 (min 1 (claimScoreWS "wifi-broken" "Infrastructure" / 6)) = 333/1000 := by
  decide

/-- `find?` returns the head of the suffix when everything before fails
the predicate and the head satisfies it. -/
theorem find?_append_first {α} (p : α → Bool) (r : α) :
    ∀ (l₁ l₂ : List α), (∀ x ∈ l₁, p x = false) → p r = true →
      (l₁ ++ r :: l₂).find? p = some r
  | [], l₂, _, hr => by simp [List.find?_cons_of_pos _ hr]
  | x :: xs, l₂, h₁, hr => by
    have hx := h₁ x (List.mem_cons_self x xs)
    rw [List.cons_append, List.find?_cons_of_neg _ (by simp [hx])]
    exact find?_append_first p r xs l₂ (fun y hy => h₁ y (List.mem_cons_of_mem x hy)) hr

/-- C3 (amended).  `classify_complaint` scores each category exactly by
the claim's formula — +2 per keyword substring, +0.2 per (token, keyword)
pair with length gap ≤ 2 and matching ≤3-character prefix, +5 to
Harassment on a high-severity term — with tokens being the maximal runs
of word characters (`\w+`), not whitespace-delimited; it returns `"Other"`
when no score is positive, otherwise the first category attaining the
strictly highest score in enumeration order, with confidence
`round(min(1, score/6), 3)`. -/
theorem classify_scoring (text : String) :
    rawScores text = ALL_CATEGORIES.map (fun c => (c, claimScore text c))
    ∧ ((∀ p ∈ rawScores text, p.2 ≤ 0) → (classify_complaint text).1 = "Other")
    ∧ (∀ r ∈ rawScores text, 0 < r.2 → (∀ p ∈ rawScores text, p.2 ≤ r.2) →
        (rawScores text).find? (fun p => decide (p.2 = r.2))
          = some ((classify_complaint text).1, r.2))
    ∧ (classify_complaint text).2
        = round3 (min 1 (claimScore text (classify_complaint text).1 / 6)) := by
  have hcl1 : (classify_complaint text).1 = (pickBest (rawScores text)).1 := rfl
  have hcl2 : (classify_complaint text).2
      = round3 (min 1 ((pickBest (rawScores text)).2 / 6)) := rfl
  have hps := pickFold_spec ("Other", 0) (rawScores text)
  refine ⟨rawScores_eq text, ?_, ?_, ?_⟩
  · intro hz
    rcases hps with ⟨heq, _⟩ | ⟨l₁, r, l₂, hsplit, heq, hlt, _, _⟩
    · rw [hcl1, show pickBest (rawScores text) = ("Other", 0) from heq]
    · exfalso
      have hr : r ∈ rawScores text :=
        hsplit ▸ List.mem_append.mpr (.inr (List.mem_cons_self _ _))
      exact absurd (hz r hr) (not_le.mpr hlt)
  · intro r hr hrpos hrmax
    rcases hps with ⟨heq, hle⟩ | ⟨l₁, rb, l₂, hsplit, heq, hlt, h₁, h₂⟩
    · exact absurd (hle r hr) (not_le.mpr hrpos)
    · have hrb : rb ∈ rawScores text :=
        hsplit ▸ List.mem_append.mpr (.inr (List.mem_cons_self _ _))
      have hrbmax : ∀ p ∈ rawScores text, p.2 ≤ rb.2 := by
        intro p hp
        rw [hsplit] at hp
        rcases List.mem_append.mp hp with hp | hp
        · exact le_of_lt (h₁ p hp)
        · rcases List.mem_cons.mp hp with rfl | hp
          · exact le_refl _
          · exact h₂ p hp
      have hereq : rb.2 = r.2 := le_antisymm (hrmax rb hrb) (hrbmax r hr)
      have hfalse : ∀ x ∈ l₁, (fun p : String × ℚ => decide (p.2 = r.2)) x = false := by
        intro x hx
        have hxlt : x.2 < rb.2 := h₁ x hx
        simp only [decide_eq_false_iff_not]
        intro hxe
        rw [hxe, ← hereq] at hxlt
        exact lt_irrefl _ hxlt
      have htrue : (fun p : String × ℚ => decide (p.2 = r.2)) rb = true := by
        simp [hereq]
      rw [hcl1, show pickBest (rawScores text) = rb from heq, hsplit,
          find?_append_first _ rb l₁ l₂ hfalse htrue]
      exact congrArg some (Prod.ext rfl hereq)
  · have hbs : (pickBest (rawScores text)).2
        = claimScore text (pickBest (rawScores text)).1 := by
      rcases pickBest_cases (rawScores text) with h | ⟨hmem, _⟩
      · rw [h]
        exact (claimScore_other text).symm
      · rw [rawScores_eq text] at hmem
        rcases List.mem_map.mp hmem with ⟨c, _, hch⟩
        rw [← rawScores_eq text] at hch
        rw [← hch]
    rw [hcl2, hcl1, hbs]

theorem insertByTs_perm (c : Complaint) (l : List Complaint) :
    (insertByTs c l).Perm (c :: l) := by
  induction l with
  | nil => exact List.Perm.refl _
  | cons x xs ih =>
    unfold insertByTs
    split
    · exact List.Perm.refl _
    · exact (List.Perm.cons x ih).trans (List.Perm.swap c x xs)

theorem sortByTsDesc_perm (l : List Complaint) : (sortByTsDesc l).Perm l := by
  induction l with
  | nil => exact List.Perm.refl _
  | cons x xs ih => exact (insertByTs_perm x _).trans (List.Perm.cons x ih)

theorem insertByTs_sorted (c : Complaint) (l : List Complaint)
    (hl : l.Pairwise (fun a b => b.timestamp ≤ a.timestamp)) :
    (insertByTs c l).Pairwise (fun a b => b.timestamp ≤ a.timestamp) := by
  induction l with
  | nil => simp [insertByTs]
  | cons x xs ih =>
    rcases List.pairwise_cons.mp hl with ⟨hx, hxs⟩
    unfold insertByTs
    split
    case isTrue h =>
      refine List.pairwise_cons.mpr ⟨?_, hl⟩
      intro y hy
      rcases List.mem_cons.mp hy with rfl | hy
      · exact h
      · exact le_trans (hx y hy) h
    case isFalse h =>
      refine List.pairwise_cons.mpr ⟨?_, ih hxs⟩
      intro y hy
      rcases List.mem_cons.mp ((insertByTs_perm c xs).mem_iff.mp hy) with rfl | hy
      · exact le_of_lt (lt_of_not_le h)
      · exact hx y hy

theorem sortByTsDesc_sorted (l : List Complaint) :
    (sortByTsDesc l).Pairwise (fun a b => b.timestamp ≤ a.timestamp) := by
  induction l with
  | nil => simp [sortByTsDesc]
  | cons x xs ih => exact insertByTs_sorted x _ ih

theorem insertByTs_stable (c : Complaint) (l : List Complaint)
    (hl : l.Pairwise (fun a b =>
      b.timestamp < a.timestamp ∨ (a.timestamp = b.timestamp ∧ a.id < b.id)))
    (htie : ∀ y ∈ l, c.timestamp = y.timestamp → c.id < y.id) :
    (insertByTs c l).Pairwise (fun a b =>
      b.timestamp < a.timestamp ∨ (a.timestamp = b.timestamp ∧ a.id < b.id)) := by
  induction l with
  | nil => simp [insertByTs]
  | cons x xs ih =>
    rcases List.pairwise_cons.mp hl with ⟨hx, hxs⟩
    unfold insertByTs
    split
    case isTrue h =>
      refine List.pairwise_cons.mpr ⟨?_, hl⟩
      intro y hy
      rcases List.mem_cons.mp hy with rfl | hy
      · have := htie y (List.mem_cons_self _ _)
        omega
      · have hxy := hx y hy
        have := htie y (List.mem_cons_of_mem x hy)
        omega
    case isFalse h =>
      refine List.pairwise_cons.mpr ⟨?_,
        ih hxs (fun y hy heq => htie y (List.mem_cons_of_mem x hy) heq)⟩
      intro z hz
      rcases List.mem_cons.mp ((insertByTs_perm c xs).mem_iff.mp hz) with rfl | hz
      · exact .inl (lt_of_not_le h)
      · exact hx z hz

theorem sortByTsDesc_stable (l : List Complaint)
    (hids : l.Pairwise (fun a b => a.id < b.id)) :
    (sortByTsDesc l).Pairwise (fun a b =>
      b.timestamp < a.timestamp ∨ (a.timestamp = b.timestamp ∧ a.id < b.id)) := by
  induction l with
  | nil => simp [sortByTsDesc]
  | cons x xs ih =>
    rcases List.pairwise_cons.mp hids with ⟨hx, hxs⟩
    exact insertByTs_stable x _ (ih hxs)
      (fun y hy _ => hx y ((sortByTsDesc_perm xs).mem_iff.mp hy))

/-- Appending a strictly newer record and sorting puts it first. -/
theorem sortByTsDesc_append_strict (c : Complaint) :
    ∀ l : List Complaint, (∀ x ∈ l, x.timestamp < c.timestamp) →
      sortByTsDesc (l ++ [c]) = c :: sortByTsDesc l
  | [], _ => rfl
  | x :: xs, h => by
    show insertByTs x (sortByTsDesc (xs ++ [c])) = c :: insertByTs x (sortByTsDesc xs)
    rw [sortByTsDesc_append_strict c xs (fun y hy => h y (List.mem_cons_of_mem x hy))]
    show (if c.timestamp ≤ x.timestamp then x :: c :: sortByTsDesc xs
          else c :: insertByTs x (sortByTsDesc xs)) = c :: insertByTs x (sortByTsDesc xs)
    rw [if_neg (not_le.mpr (h x (List.mem_cons_self x xs)))]

/-- C4 counterexample.  The SQL query orders by `timestamp DESC` with no
secondary key; under the stable-sort model two rows sharing a timestamp
come out in rowid order, id ASCENDING — id 1 before id 2 — while the
claim demands id-descending ties (id 2 first). -/
theorem list_complaints_tie_cex :
    list_complaints [⟨1, "Other", "a", "b", "New", 100, 100, none, 0, true⟩,
                     ⟨2, "Other", "c", "d", "New", 100, 100, none, 0, true⟩]
      = [⟨1, "Other", "a", "b", "New", 100, 100, none, 0, true⟩,
         ⟨2, "Other", "c", "d", "New", 100, 100, none, 0, true⟩]
    ∧ list_complaints [⟨1, "Other", "a", "b", "New", 100, 100, none, 0, true⟩,
                       ⟨2, "Other", "c", "d", "New", 100, 100, none, 0, true⟩]
      ≠ [⟨2, "Other", "c", "d", "New", 100, 100, none, 0, true⟩,
         ⟨1, "Other", "a", "b", "New", 100, 100, none, 0, true⟩] := by
  decide

/-- C4 (amended).  `list_complaints` returns a permutation of the table
ordered by `created_at` descending; for rows stored in id-ascending order
(the store's invariant) ties in `created_at` keep the record with the
SMALLER id first (rowid scan order — the query has no id tiebreak).  A
create whose timestamp strictly exceeds every existing record's timestamp
followed by `list_complaints` shows the new record first, with status
`"New"` and `resolved_at` unset. -/
theorem list_complaints_order :
    (∀ rows : List Complaint,
      (list_complaints rows).Perm rows
      ∧ (list_complaints rows).Pairwise (fun a b => b.timestamp ≤ a.timestamp)
      ∧ (rows.Pairwise (fun a b => a.id < b.id) →
          (list_complaints rows).Pairwise (fun a b =>
            b.timestamp < a.timestamp ∨ (a.timestamp = b.timestamp ∧ a.id < b.id))))
    ∧ (∀ (rows : List Complaint) (title body : String) (now : Int) (sent : Bool),
        strip body.data ≠ [] → (∀ r ∈ rows, r.timestamp < now) →
        ∃ r rest, list_complaints (create_complaint rows title body now sent).1 = r :: rest
          ∧ r.id = rows.length + 1 ∧ r.status = "New" ∧ r.resolved_at = none) := by
  refine ⟨fun rows => ⟨sortByTsDesc_perm rows, sortByTsDesc_sorted rows,
    sortByTsDesc_stable rows⟩, ?_⟩
  intro rows title body now sent hb hnow
  have hcreate : ∃ nr : Complaint, (create_complaint rows title body now sent).1
      = rows ++ [nr] ∧ nr.id = rows.length + 1 ∧ nr.status = "New"
      ∧ nr.resolved_at = none ∧ nr.timestamp = now := by
    unfold create_complaint
    rw [if_neg hb]
    exact ⟨_, rfl, rfl, rfl, rfl, rfl⟩
  obtain ⟨nr, hceq, hid, hst, hres, hts⟩ := hcreate
  refine ⟨nr, sortByTsDesc rows, ?_, hid, hst, hres⟩
  unfold list_complaints
  rw [hceq, sortByTsDesc_append_strict nr rows (fun x hx => hts ▸ hnow x hx)]

/-- Witness for C4 (amended) at concrete inputs. -/
theorem list_complaints_order_witness :
    ([⟨1, "Other", "a", "b", "New", 100, 100, none, 0, true⟩] :
        List Complaint).Pairwise (fun a b => a.id < b.id)
    ∧ (list_complaints [⟨1, "Other", "a", "b", "New", 100, 100, none, 0, true⟩]).Pairwise
        (fun a b => b.timestamp < a.timestamp ∨ (a.timestamp = b.timestamp ∧ a.id < b.id))
    ∧ (∃ r rest, list_complaints (create_complaint
          [⟨1, "Other", "a", "b", "New", 100, 100, none, 0, true⟩] "t" "leak" 200 true).1
        = r :: rest ∧ r.id = 2 ∧ r.status = "New" ∧ r.resolved_at = none) :=
  ⟨by decide,
   (list_complaints_order.1 [⟨1, "Other", "a", "b", "New", 100, 100, none, 0, true⟩]).2.2
     (by decide),
   list_complaints_order.2 [⟨1, "Other", "a", "b", "New", 100, 100, none, 0, true⟩]
     "t" "leak" 200 true (by decide) (by decide)⟩

theorem charsLe_total : ∀ a b : List Char, charsLe a b = true ∨ charsLe b a = true
  | [], _ => .inl rfl
  | _ :: _, [] => .inr rfl
  | a :: as, b :: bs => by
    rcases lt_trichotomy a b with h | h | h
    · exact .inl (by unfold charsLe; rw [if_pos h])
    · subst h
      unfold charsLe
      simp only [lt_irrefl, if_false, ite_false]
      exact charsLe_total as bs
    · exact .inr (by unfold charsLe; rw [if_pos h])

theorem charsLe_trans : ∀ a b c : List Char,
    charsLe a b = true → charsLe b c = true → charsLe a c = true
  | [], _, _, _, _ => rfl
  | _ :: _, [], _, hab, _ => by simp [charsLe] at hab
  | _ :: _, _ :: _, [], _, hbc => by simp [charsLe] at hbc
  | x :: xs, y :: ys, z :: zs, hab, hbc => by
    unfold charsLe at hab hbc ⊢
    rcases lt_trichotomy x y with hxy | hxy | hxy
    · rcases lt_trichotomy y z with hyz | hyz | hyz
      · rw [if_pos (lt_trans hxy hyz)]
      · subst hyz
        rw [if_pos hxy]
      · rw [if_neg (not_lt.mpr (le_of_lt hyz)), if_pos hyz] at hbc
        exact absurd hbc (by simp)
    · subst hxy
      rcases lt_trichotomy x z with hxz | hxz | hxz
      · rw [if_pos hxz]
      · subst hxz
        rw [if_neg (lt_irrefl x), if_neg (lt_irrefl x)] at hab hbc ⊢
        exact charsLe_trans xs ys zs hab hbc
      · rw [if_neg (not_lt.mpr (le_of_lt hxz)), if_pos hxz] at hbc
        exact absurd hbc (by simp)
    · rw [if_neg (not_lt.mpr (le_of_lt hxy)), if_pos hxy] at hab
      exact absurd hab (by simp)

theorem insertStrAsc_perm (s : String) (l : List String) :
    (insertStrAsc s l).Perm (s :: l) := by
  induction l with
  | nil => exact List.Perm.refl _
  | cons x xs ih =>
    unfold insertStrAsc
    split
    · exact List.Perm.refl _
    · exact (List.Perm.cons x ih).trans (List.Perm.swap s x xs)

theorem sortStrAsc_perm (l : List String) : (sortStrAsc l).Perm l := by
  induction l with
  | nil => exact List.Perm.refl _
  | cons x xs ih => exact (insertStrAsc_perm x _).trans (List.Perm.cons x ih)

theorem insertStrAsc_sorted (s : String) (l : List String)
    (hl : l.Pairwise (fun a b => strLe a b = true)) :
    (insertStrAsc s l).Pairwise (fun a b => strLe a b = true) := by
  induction l with
  | nil => simp [insertStrAsc]
  | cons x xs ih =>
    rcases List.pairwise_cons.mp hl with ⟨hx, hxs⟩
    unfold insertStrAsc
    split
    case isTrue h =>
      refine List.pairwise_cons.mpr ⟨?_, hl⟩
      intro y hy
      rcases List.mem_cons.mp hy with rfl | hy
      · exact h
      · exact charsLe_trans _ _ _ h (hx y hy)
    case isFalse h =>
      refine List.pairwise_cons.mpr ⟨?_, ih hxs⟩
      intro y hy
      rcases List.mem_cons.mp ((insertStrAsc_perm s xs).mem_iff.mp hy) with rfl | hy
      · rcases charsLe_total x.data y.data with hxy | hys
        · exact hxy
        · exact absurd hys h
      · exact hx y hy

theorem sortStrAsc_sorted (l : List String) :
    (sortStrAsc l).Pairwise (fun a b => strLe a b = true) := by
  induction l with
  | nil => simp [sortStrAsc]
  | cons x xs ih => exact insertStrAsc_sorted x _ ih

/-- The groups emitted for the ranking are strictly ascending by name. -/
theorem groupCats_pairwise (rows : List Complaint) :
    (groupCats rows).Pairwise (fun a b => strLe a b = true ∧ a ≠ b) := by
  unfold groupCats
  have hs := sortStrAsc_sorted (((rows.filter isResolved).map (fun r => r.category)).dedup)
  have hnd : (sortStrAsc (((rows.filter isResolved).map (fun r => r.category)).dedup)).Nodup :=
    ((sortStrAsc_perm _).nodup_iff).mpr (List.nodup_dedup _)
  exact hs.and hnd

theorem insertBySpeed_perm (e : String × Int × Nat) (l : List (String × Int × Nat)) :
    (insertBySpeed e l).Perm (e :: l) := by
  induction l with
  | nil => exact List.Perm.refl _
  | cons x xs ih =>
    unfold insertBySpeed
    split
    · exact List.Perm.refl _
    · exact (List.Perm.cons x ih).trans (List.Perm.swap e x xs)

theorem sortBySpeed_perm (l : List (String × Int × Nat)) : (sortBySpeed l).Perm l := by
  induction l with
  | nil => exact List.Perm.refl _
  | cons x xs ih => exact (insertBySpeed_perm x _).trans (List.Perm.cons x ih)

theorem insertBySpeed_stable (e : String × Int × Nat) (l : List (String × Int × Nat))
    (hl : l.Pairwise (fun a b =>
      speedKey a < speedKey b ∨ (speedKey a = speedKey b ∧ strLe a.1 b.1 = true ∧ a.1 ≠ b.1)))
    (htie : ∀ y ∈ l, speedKey e = speedKey y → strLe e.1 y.1 = true ∧ e.1 ≠ y.1) :
    (insertBySpeed e l).Pairwise (fun a b =>
      speedKey a < speedKey b ∨ (speedKey a = speedKey b ∧ strLe a.1 b.1 = true ∧ a.1 ≠ b.1)) := by
  induction l with
  | nil => simp [insertBySpeed]
  | cons x xs ih =>
    rcases List.pairwise_cons.mp hl with ⟨hx, hxs⟩
    unfold insertBySpeed
    split
    case isTrue h =>
      refine List.pairwise_cons.mpr ⟨?_, hl⟩
      intro y hy
      rcases List.mem_cons.mp hy with rfl | hy
      · rcases lt_or_eq_of_le h with hlt | heq
        · exact .inl hlt
        · exact .inr ⟨heq, htie y (List.mem_cons_self _ _) heq⟩
      · rcases hx y hy with hlt | ⟨heq, _⟩
        · exact .inl (lt_of_le_of_lt h hlt)
        · rcases lt_or_eq_of_le (le_of_le_of_eq h heq) with hlt2 | heq2
          · exact .inl hlt2
          · exact .inr ⟨heq2, htie y (List.mem_cons_of_mem x hy) heq2⟩
    case isFalse h =>
      refine List.pairwise_cons.mpr ⟨?_,
        ih hxs (fun y hy heq => htie y (List.mem_cons_of_mem x hy) heq)⟩
      intro z hz
      rcases List.mem_cons.mp ((insertBySpeed_perm e xs).mem_iff.mp hz) with rfl | hz
      · exact .inl (lt_of_not_le h)
      · exact hx z hz

theorem sortBySpeed_stable (l : List (String × Int × Nat))
    (hfst : l.Pairwise (fun a b => strLe a.1 b.1 = true ∧ a.1 ≠ b.1)) :
    (sortBySpeed l).Pairwise (fun a b =>
      speedKey a < speedKey b ∨ (speedKey a = speedKey b ∧ strLe a.1 b.1 = true ∧ a.1 ≠ b.1)) := by
  induction l with
  | nil => simp [sortBySpeed]
  | cons x xs ih =>
    rcases List.pairwise_cons.mp hfst with ⟨hx, hxs⟩
    exact insertBySpeed_stable x _ (ih hxs)
      (fun y hy _ => hx y ((sortBySpeed_perm xs).mem_iff.mp hy))

/-- C2 counterexample.  The sort key of source line 306 maps a zero
average to the sentinel `10^9`, so a category resolved instantly
(`avg_seconds = 0`) sorts LAST, not first; and ties in `avg_seconds`
keep the store's grouping order — ascending category NAME — not the
keyword table's enumeration order.  Store 1: Infrastructure avg 0,
Academic avg 120 — the ranking lists Academic first, though the claim
puts the 0-average entry first.  Store 2: both categories average 60 —
the tie yields Academic before Infrastructure, though Infrastructure is
declared first in the category enumeration. -/
theorem speed_stats_cex :
    speed_stats [⟨1, "Infrastructure", "t", "b", "Resolved", 0, 0, some 0, 0, true⟩,
                 ⟨2, "Academic", "t", "b", "Resolved", 0, 120, some 120, 0, true⟩]
      = [("Academic", 120, 1), ("Infrastructure", 0, 1)]
    ∧ speed_stats [⟨1, "Infrastructure", "t", "b", "Resolved", 0, 0, some 0, 0, true⟩,
                   ⟨2, "Academic", "t", "b", "Resolved", 0, 120, some 120, 0, true⟩]
      ≠ [("Infrastructure", 0, 1), ("Academic", 120, 1)]
    ∧ speed_stats [⟨1, "Infrastructure", "t", "b", "Resolved", 0, 60, some 60, 0, true⟩,
                   ⟨2, "Academic", "t", "b", "Resolved", 0, 60, some 60, 0, true⟩]
      = [("Academic", 60, 1), ("Infrastructure", 60, 1)]
    ∧ speed_stats [⟨1, "Infrastructure", "t", "b", "Resolved", 0, 60, some 60, 0, true⟩,
                   ⟨2, "Academic", "t", "b", "Resolved", 0, 60, some 60, 0, true⟩]
      ≠ [("Infrastructure", 60, 1), ("Academic", 60, 1)] := by
  decide

/-- C2 (amended).  The ranking holds exactly one entry per category with
at least one resolved record; each entry carries the integer-truncated
arithmetic mean of `(resolved_at - created_at)` and the resolved count
for its category (`entryFor`); and the list is sorted ascending by the
key `avg_seconds if avg_seconds > 0 else 10^9` — so zero (or negative)
averages sort last — with ties in the key ordered by ascending category
name (the store's grouping order), not by category enumeration order. -/
theorem speed_stats_spec (rows : List Complaint) :
    ((speed_stats rows).map Prod.fst).Perm
      (((rows.filter isResolved).map (fun r => r.category)).dedup)
    ∧ (∀ e ∈ speed_stats rows, e = entryFor rows e.1)
    ∧ (speed_stats rows).Pairwise (fun a b =>
        speedKey a < speedKey b
        ∨ (speedKey a = speedKey b ∧ strLe a.1 b.1 = true ∧ a.1 ≠ b.1)) := by
  have hperm : (speed_stats rows).Perm ((groupCats rows).map (entryFor rows)) :=
    sortBySpeed_perm _
  refine ⟨?_, ?_, ?_⟩
  · have h1 : ((speed_stats rows).map Prod.fst).Perm
        (((groupCats rows).map (entryFor rows)).map Prod.fst) := hperm.map Prod.fst
    have h2 : ((groupCats rows).map (entryFor rows)).map Prod.fst = groupCats rows := by
      rw [List.map_map]
      exact map_eq_self_of_mem _ _ (fun c _ => rfl)
    rw [h2] at h1
    exact h1.trans (sortStrAsc_perm _)
  · intro e he
    rcases List.mem_map.mp (hperm.mem_iff.mp he) with ⟨c, _, rfl⟩
    rfl
  · apply sortBySpeed_stable
    rw [List.pairwise_map]
    exact groupCats_pairwise rows

/-- Witness for C2 (amended) at a concrete store. -/
theorem speed_stats_spec_witness :
    (("Academic", (120 : Int), 1)
        ∈ speed_stats [⟨1, "Infrastructure", "t", "b", "Resolved", 0, 0, some 0, 0, true⟩,
                       ⟨2, "Academic", "t", "b", "Resolved", 0, 120, some 120, 0, true⟩])
    ∧ ("Academic", (120 : Int), 1)
        = entryFor [⟨1, "Infrastructure", "t", "b", "Resolved", 0, 0, some 0, 0, true⟩,
                    ⟨2, "Academic", "t", "b", "Resolved", 0, 120, some 120, 0, true⟩]
            ("Academic", (120 : Int), 1).1 :=
  ⟨by decide,
   (speed_stats_spec [⟨1, "Infrastructure", "t", "b", "Resolved", 0, 0, some 0, 0, true⟩,
      ⟨2, "Academic", "t", "b", "Resolved", 0, 120, some 120, 0, true⟩]).2.1
     ("Academic", (120 : Int), 1) (by decide)⟩

theorem applyStatus_id (cid : Nat) (ns : String) (now : Int) (r : Complaint) :
    (applyStatus cid ns now r).id = r.id := by
  unfold applyStatus
  split
  · split <;> rfl
  · rfl

theorem applyStatus_of_ne (cid : Nat) (ns : String) (now : Int) (r : Complaint)
    (h : r.id ≠ cid) : applyStatus cid ns now r = r := by
  unfold applyStatus
  rw [if_neg h]

theorem run_concat (ops : List Op) (op : Op) :
    run (ops ++ [op]) = stepOp (run ops) op := by
  unfold run
  rw [List.foldl_append]
  rfl

/-- Every step of the store preserves or grows the table. -/
theorem foldl_length_mono :
    ∀ (suf : List Op) (rows : List Complaint),
      rows.length ≤ (List.foldl stepOp rows suf).length
  | [], _ => le_refl _
  | op :: suf, rows => by
    refine le_trans ?_ (foldl_length_mono suf (stepOp rows op))
    cases op with
    | create t b now sent =>
      show rows.length ≤ (create_complaint rows t b now sent).1.length
      unfold create_complaint
      split
      · exact le_refl _
      · rw [List.length_append]
        exact Nat.le_add_right _ _
    | update cid ns now =>
      show rows.length ≤ (update_status rows cid ns now).1.length
      unfold update_status
      split
      · rw [List.length_map]
      · exact le_refl _

/-- The ids in the table after any history are exactly `1 .. length`. -/
theorem run_ids : ∀ ops : List Op,
    (run ops).map (fun r => r.id) = List.range' 1 (run ops).length := by
  intro ops
  induction ops using List.reverseRecOn with
  | nil => rfl
  | append_singleton l op ih =>
    rw [run_concat]
    cases op with
    | create t b now sent =>
      show ((create_complaint (run l) t b now sent).1).map _
          = List.range' 1 ((create_complaint (run l) t b now sent).1).length
      unfold create_complaint
      split
      · exact ih
      · rw [List.map_append, ih, List.length_append]
        show List.range' 1 (run l).length ++ [(run l).length + 1]
            = List.range' 1 ((run l).length + 1)
        have harith : (run l).length + 1 = 1 + 1 * (run l).length := by omega
        rw [List.range'_concat, harith]
    | update cid ns now =>
      show ((update_status (run l) cid ns now).1).map _
          = List.range' 1 ((update_status (run l) cid ns now).1).length
      unfold update_status
      split
      · show ((run l).map (applyStatus cid ns now)).map (fun r => r.id)
            = List.range' 1 ((run l).map (applyStatus cid ns now)).length
        rw [List.map_map, List.length_map]
        have hcomp : ((fun r : Complaint => r.id) ∘ applyStatus cid ns now)
            = fun r : Complaint => r.id :=
          funext fun r => applyStatus_id cid ns now r
        rw [hcomp]
        exact ih
      · exact ih

/-- Every record's id is positive and bounded by the table length. -/
theorem run_id_le (ops : List Op) (r : Complaint) (hr : r ∈ run ops) :
    1 ≤ r.id ∧ r.id ≤ (run ops).length := by
  have hmem : r.id ∈ (run ops).map (fun r => r.id) := List.mem_map_of_mem _ hr
  rw [run_ids ops] at hmem
  have := List.mem_range'_1.mp hmem
  omega

/-- A prefix of a history yields a table no longer than the full one. -/
theorem run_prefix_length (pre ops : List Op) (h : pre <+: ops) :
    (run pre).length ≤ (run ops).length := by
  rcases h with ⟨suf, rfl⟩
  show (run pre).length ≤ (run (pre ++ suf)).length
  unfold run
  rw [List.foldl_append]
  exact foldl_length_mono suf _

theorem prefix_concat_cases {α} (pre l : List α) (a : α) (h : pre <+: l ++ [a]) :
    pre <+: l ∨ pre = l ++ [a] := by
  by_cases hl : pre.length = (l ++ [a]).length
  · exact .inr (List.IsPrefix.eq_of_length h hl)
  · left
    have hle : pre.length ≤ l.length := by
      have h1 := h.length_le
      rw [List.length_append, List.length_singleton] at h1 hl
      omega
    rw [List.prefix_iff_eq_take] at h ⊢
    rw [List.take_append_of_le_length hle] at h
    exact h

theorem everResolved_concat (ops : List Op) (op : Op) (cid : Nat) :
    everResolved (ops ++ [op]) cid ↔
      everResolved ops cid
      ∨ ∃ r ∈ run (ops ++ [op]), r.id = cid ∧ r.status = "Resolved" := by
  constructor
  · rintro ⟨pre, hpre, hr⟩
    rcases prefix_concat_cases pre ops op hpre with hp | rfl
    · exact .inl ⟨pre, hp, hr⟩
    · exact .inr hr
  · rintro (⟨pre, hpre, hr⟩ | hr)
    · exact ⟨pre, hpre.trans (List.prefix_append ops [op]), hr⟩
    · exact ⟨ops ++ [op], List.prefix_refl _, hr⟩

theorem everResolved_concat_eq (ops : List Op) (op : Op) (cid : Nat)
    (hstate : run (ops ++ [op]) = run ops) :
    everResolved (ops ++ [op]) cid ↔ everResolved ops cid := by
  rw [everResolved_concat]
  constructor
  · rintro (h | hr)
    · exact h
    · rw [hstate] at hr
      exact ⟨ops, List.prefix_refl _, hr⟩
  · exact .inl

/-- Along every history, a record's `resolved_at` is set iff its id has
reached status `"Resolved"` at some point of the history. -/
theorem run_resolved_iff : ∀ ops : List Op, ∀ r ∈ run ops,
    (r.resolved_at ≠ none ↔ everResolved ops r.id) := by
  intro ops
  induction ops using List.reverseRecOn with
  | nil =>
    intro r hr
    exact absurd hr (List.not_mem_nil r)
  | append_singleton l op ih =>
    intro r hr
    rw [run_concat] at hr
    cases op with
    | create t b now sent =>
      by_cases hb : strip b.data = []
      · have hs : stepOp (run l) (Op.create t b now sent) = run l := by
          show (create_complaint (run l) t b now sent).1 = run l
          unfold create_complaint
          rw [if_pos hb]
        rw [hs] at hr
        rw [everResolved_concat_eq _ _ _ (by rw [run_concat, hs])]
        exact ih r hr
      · obtain ⟨nr, hs, hid, hstatus, hres⟩ : ∃ nr : Complaint,
            stepOp (run l) (Op.create t b now sent) = run l ++ [nr]
            ∧ nr.id = (run l).length + 1 ∧ nr.status = "New" ∧ nr.resolved_at = none := by
          show ∃ nr, (create_complaint (run l) t b now sent).1 = _ ∧ _
          unfold create_complaint
          rw [if_neg hb]
          exact ⟨_, rfl, rfl, rfl, rfl⟩
        rw [hs] at hr
        rcases List.mem_append.mp hr with hrold | hrnew
        · rw [everResolved_concat]
          constructor
          · intro hne
            exact .inl ((ih r hrold).mp hne)
          · rintro (h | ⟨q, hq, hqid, hqres⟩)
            · exact (ih r hrold).mpr h
            · rw [run_concat, hs] at hq
              rcases List.mem_append.mp hq with hq | hq
              · exact (ih r hrold).mpr ⟨l, List.prefix_refl l, q, hq, hqid, hqres⟩
              · rcases List.mem_singleton.mp hq with rfl
                rw [hstatus] at hqres
                exact absurd hqres (by decide)
        · rcases List.mem_singleton.mp hrnew with rfl
          constructor
          · intro hne
            exact (hne hres).elim
          · rintro ⟨pre, hpre, q, hq, hqid, hqres⟩
            exfalso
            rcases prefix_concat_cases pre l _ hpre with hp | rfl
            · have hb1 := run_id_le pre q hq
              have hb2 := run_prefix_length pre l hp
              omega
            · rw [run_concat, hs] at hq
              rcases List.mem_append.mp hq with hq | hq
              · have hb1 := run_id_le l q hq
                omega
              · rcases List.mem_singleton.mp hq with rfl
                rw [hstatus] at hqres
                exact absurd hqres (by decide)
    | update cid ns now =>
      by_cases hv : ns = "New" ∨ ns = "In Progress" ∨ ns = "Resolved"
      · have hs : stepOp (run l) (Op.update cid ns now)
            = (run l).map (applyStatus cid ns now) := by
          show (update_status (run l) cid ns now).1 = _
          unfold update_status
          rw [if_pos hv]
        rw [hs] at hr
        rcases List.mem_map.mp hr with ⟨q, hq, rfl⟩
        rw [show (applyStatus cid ns now q).id = q.id from applyStatus_id cid ns now q]
        by_cases hqid : q.id = cid
        · by_cases hns : ns = "Resolved"
          · subst hns
            have hfq : applyStatus cid "Resolved" now q
                = { q with status := "Resolved", updated_at := now,
                           resolved_at := some now } := by
              unfold applyStatus
              rw [if_pos hqid, if_pos rfl]
            rw [hfq]
            constructor
            · intro _
              refine ⟨l ++ [Op.update cid "Resolved" now], List.prefix_refl _,
                { q with status := "Resolved", updated_at := now,
                         resolved_at := some now }, ?_, rfl, rfl⟩
              rw [run_concat, hs]
              exact List.mem_map.mpr ⟨q, hq, hfq⟩
            · intro _
              simp
          · have hfq : applyStatus cid ns now q
                = { q with status := ns, updated_at := now } := by
              unfold applyStatus
              rw [if_pos hqid, if_neg hns]
            rw [hfq]
            rw [everResolved_concat]
            constructor
            · intro hne
              exact .inl ((ih q hq).mp hne)
            · rintro (h | ⟨p, hp, hpid, hpres⟩)
              · exact (ih q hq).mpr h
              · rw [run_concat, hs] at hp
                rcases List.mem_map.mp hp with ⟨p0, hp0, rfl⟩
                by_cases hp0id : p0.id = cid
                · have hfp : applyStatus cid ns now p0
                      = { p0 with status := ns, updated_at := now } := by
                    unfold applyStatus
                    rw [if_pos hp0id, if_neg hns]
                  rw [hfp] at hpres
                  exact absurd hpres hns
                · rw [applyStatus_of_ne cid ns now p0 hp0id] at hpid hpres
                  exact (ih q hq).mpr ⟨l, List.prefix_refl l, p0, hp0, hpid, hpres⟩
        · rw [applyStatus_of_ne cid ns now q hqid]
          rw [everResolved_concat]
          constructor
          · intro hne
            exact .inl ((ih q hq).mp hne)
          · rintro (h | ⟨p, hp, hpid, hpres⟩)
            · exact (ih q hq).mpr h
            · rw [run_concat, hs] at hp
              rcases List.mem_map.mp hp with ⟨p0, hp0, rfl⟩
              rw [show (applyStatus cid ns now p0).id = p0.id
                    from applyStatus_id cid ns now p0] at hpid
              by_cases hp0id : p0.id = cid
              · rw [hp0id] at hpid
                exact absurd hpid.symm hqid
              · rw [applyStatus_of_ne cid ns now p0 hp0id] at hpres
                exact (ih q hq).mpr ⟨l, List.prefix_refl l, p0, hp0, hpid, hpres⟩
      · have hs : stepOp (run l) (Op.update cid ns now) = run l := by
          show (update_status (run l) cid ns now).1 = run l
          unfold update_status
          rw [if_neg hv]
        rw [hs] at hr
        rw [everResolved_concat_eq _ _ _ (by rw [run_concat, hs])]
        exact ih r hr

/-- C6.  Along every history of create and update operations, a record's
`resolved_at` is set iff the record has reached status `"Resolved"` at
some point; every transition into `"Resolved"` stamps
`resolved_at = updated_at = now` unconditionally (overwriting any earlier
value); and create leaves `resolved_at` unset. -/
theorem resolved_at_tracking :
    (∀ ops : List Op, ∀ r ∈ run ops, (r.resolved_at ≠ none ↔ everResolved ops r.id))
    ∧ (∀ (rows : List Complaint) (cid : Nat) (now : Int), ∀ r ∈ rows, r.id = cid →
        ({ r with status := "Resolved", updated_at := now, resolved_at := some now }
            : Complaint)
          ∈ (update_status rows cid "Resolved" now).1)
    ∧ (∀ (rows : List Complaint) (title body : String) (now : Int) (sent : Bool),
        strip body.data ≠ [] →
        ∃ nr : Complaint, (create_complaint rows title body now sent).1 = rows ++ [nr]
          ∧ nr.status = "New" ∧ nr.resolved_at = none ∧ nr.updated_at = now) := by
  refine ⟨run_resolved_iff, ?_, ?_⟩
  · intro rows cid now r hr hid
    show _ ∈ (update_status rows cid "Resolved" now).1
    unfold update_status
    rw [if_pos (.inr (.inr rfl))]
    refine List.mem_map.mpr ⟨r, hr, ?_⟩
    unfold applyStatus
    rw [if_pos hid, if_pos rfl]
  · intro rows title body now sent hb
    unfold create_complaint
    rw [if_neg hb]
    exact ⟨_, rfl, rfl, rfl, rfl⟩

/-- Witness for C6 at a concrete history: one create then one resolve;
the record's `resolved_at` is set and the iff instantiates, the
resolve-overwrite membership holds, and the created record starts
unresolved. -/
theorem resolved_at_tracking_witness :
    ((⟨1, "Infrastructure", "t", "leak", "Resolved", 10, 20, some 20, 367/1000, true⟩
        : Complaint) ∈ run [.create "t" "leak" 10 true, .update 1 "Resolved" 20])
    ∧ ((some 20 : Option Int) ≠ none ↔
        everResolved [.create "t" "leak" 10 true, .update 1 "Resolved" 20] 1)
    ∧ ({ (⟨1, "Other", "x", "y", "New", 0, 0, some 3, 0, true⟩ : Complaint) with
          status := "Resolved", updated_at := 9, resolved_at := some 9 }
        ∈ (update_status [⟨1, "Other", "x", "y", "New", 0, 0, some 3, 0, true⟩]
            1 "Resolved" 9).1)
    ∧ (∃ nr : Complaint, (create_complaint [] "t" "leak" 10 true).1 = [] ++ [nr]
        ∧ nr.status = "New" ∧ nr.resolved_at = none ∧ nr.updated_at = 10) :=
  ⟨by decide,
   resolved_at_tracking.1 [.create "t" "leak" 10 true, .update 1 "Resolved" 20]
     ⟨1, "Infrastructure", "t", "leak", "Resolved", 10, 20, some 20, 367/1000, true⟩
     (by decide),
   resolved_at_tracking.2.1 [⟨1, "Other", "x", "y", "New", 0, 0, some 3, 0, true⟩]
     1 9 ⟨1, "Other", "x", "y", "New", 0, 0, some 3, 0, true⟩
     (by decide) (by decide),
   resolved_at_tracking.2.2 [] "t" "leak" 10 true (by decide)⟩

/-- Witness for C3 (amended) at `"wifi-broken"`: `("Infrastructure", 2.2)`
is a maximal positive entry and the find-first-maximum characterization
returns the code's winner. -/
theorem classify_scoring_witness :
    (("Infrastructure", (11 : ℚ)/5) ∈ rawScores "wifi-broken")
    ∧ ((0 : ℚ) < 11/5)
    ∧ (∀ p ∈ rawScores "wifi-broken", p.2 ≤ 11/5)
    ∧ (rawScores "wifi-broken").find?
        (fun p => decide (p.2 = (("Infrastructure", (11 : ℚ)/5) : String × ℚ).2))
      = some ((classify_complaint "wifi-broken").1,
              (("Infrastructure", (11 : ℚ)/5) : String × ℚ).2) :=
  ⟨by decide, by decide, by decide,
   (classify_scoring "wifi-broken").2.2.1 ("Infrastructure", 11/5)
     (by decide) (by decide) (by decide)⟩

/-- Witness for C5 (amended) at a concrete input. -/
theorem create_complaint_classifies_witness :
    (create_complaint [] "t" "leak" 10 true).2
      = some (1, (classifyC (strip "leak".data ++ ' ' :: strip "t".data)).1,
              (classifyC (strip "leak".data ++ ' ' :: strip "t".data)).2)
    ∧ ∃ r, (create_complaint [] "t" "leak" 10 true).1 = [] ++ [r]
        ∧ r.category = (classifyC (strip "leak".data ++ ' ' :: strip "t".data)).1
        ∧ r.predicted_confidence = (classifyC (strip "leak".data ++ ' ' :: strip "t".data)).2 :=
  create_complaint_classifies [] "t" "leak" 10 true (by decide)
